import Mathlib

/-!
Verification of the xipology DNS-cache covert channel core
(`src/lib/xipology.rs`, `src/lib/utils.rs`, `src/lib/autoconf.rs`).

The Rust code is shallowly embedded: bytes are `Nat` (with explicit masking
where the code relies on `u8` width), DNS names are `String`, `f64` values
that can be NaN are `Option ℚ` (`none` models NaN, and the arithmetic and
comparison operators propagate it exactly as IEEE-754 does for the operations
the code performs), fallible operations return `Except`/`Option`, and the
blocking DNS resolver is abstracted as a function from names to observed
latencies.  The HKDF/HMAC-SHA512 primitives and base64 come from external
crates (`ring`, `base64`), not from the repository; they are modelled as
concrete deterministic functions with the same shapes.
-/

/-- Bit extraction from `src/lib/lib.rs` (`get_bit`): `(byte >> bit) & 1`. -/
def get_bit (byte bit : Nat) : Nat := (byte >>> bit) &&& 1

/-- Bit setting from `src/lib/lib.rs` (`set_bit`): `byte |= 1 << bit`. -/
def set_bit (byte bit : Nat) : Nat := byte ||| (1 <<< bit)

/-- Modelled from the spec: HKDF extract (RFC 5869 over HMAC-SHA512) comes
from the external `ring` crate and is not part of this repository; it is
modelled as a fixed deterministic keyed mixing function from (salt, secret)
to an opaque pseudorandom key. -/
def hkdfExtract (salt secret : List Nat) : List Nat :=
  [(salt ++ 257 :: secret).foldl (fun acc b => acc * 131 + b + 1) 7]

/-- Modelled from the spec: HKDF expand (RFC 5869) with empty info, from the
external `ring` crate; modelled as the base-256 digit expansion of the
pseudorandom key to the requested number of bytes. -/
def hkdfExpand (prk : List Nat) (outLen : Nat) : List Nat :=
  (List.range outLen).map (fun i => (prk.headD 0 / 256 ^ i) % 256)

/-- Modelled from the spec: the standard base64 alphabet used by the external
`base64` crate. -/
def base64Alphabet : List Char :=
  "ABCDEFGHIJKLMNOPQRSTUVWXYZabcdefghijklmnopqrstuvwxyz0123456789+/".toList

/-- Character of the base64 alphabet at a 6-bit index. -/
def b64Idx (n : Nat) : Char := base64Alphabet.getD n (Char.ofNat 65)

/-- Modelled from the spec: standard base64 of a byte list (the inputs used by
the code are 15 bytes long, so the padding branches are never hit there). -/
def base64Chunks : List Nat → List Char
  | a :: b :: c :: rest =>
      b64Idx (a >>> 2) :: b64Idx (((a &&& 3) <<< 4) ||| (b >>> 4)) ::
      b64Idx (((b &&& 15) <<< 2) ||| (c >>> 6)) :: b64Idx (c &&& 63) ::
      base64Chunks rest
  | [a, b] =>
      [b64Idx (a >>> 2), b64Idx (((a &&& 3) <<< 4) ||| (b >>> 4)),
       b64Idx ((b &&& 15) <<< 2), Char.ofNat 61]
  | [a] =>
      [b64Idx (a >>> 2), b64Idx ((a &&& 3) <<< 4), Char.ofNat 61, Char.ofNat 61]
  | [] => []

/-- Base64 encoding to a string. -/
def base64Encode (bs : List Nat) : String := String.mk (base64Chunks bs)

/-- Name assembly from `NameDerivator::next_name`: base64 of bytes `0..15` and
`16..31` of the expanded block, joined with the fixed sink-zone suffix. -/
def mkXipoName (buf : List Nat) : String :=
  base64Encode (buf.take 15) ++ "." ++ base64Encode ((buf.drop 16).take 15) ++
    ".xipology.example.com."

/-- Derivator state from `src/lib/xipology.rs` (`NameDerivator`): a running
salt plus the secret bytes. -/
structure NameDerivator where
  salt : List Nat
  secret : List Nat
deriving DecidableEq

/-- Construction from `NameDerivator::from_secret`: the initial salt is the
empty-key HMAC-SHA512 signing key, modelled as the empty byte list. -/
def NameDerivator.from_secret (secret : List Nat) : NameDerivator :=
  { salt := [], secret := secret }

/-- Embedding of `NameDerivator::hkdf_extract_and_expand`: extract a PRK from
(salt, secret), expand one block, and advance the salt to the PRK. -/
def NameDerivator.hkdf_extract_and_expand (d : NameDerivator) (outLen : Nat) :
    List Nat × NameDerivator :=
  let prk := hkdfExtract d.salt d.secret
  (hkdfExpand prk outLen, { salt := prk, secret := d.secret })

/-- Embedding of `NameDerivator::next_name`: expand a 32-byte block and build
the two-label DNS name from it. -/
def NameDerivator.next_name (d : NameDerivator) : String × NameDerivator :=
  let r := d.hkdf_extract_and_expand 32
  (mkXipoName r.1, r.2)

/-- Derivator advanced by `k` calls of `next_name`. -/
def NameDerivator.advance (d : NameDerivator) : Nat → NameDerivator
  | 0 => d
  | k + 1 => (d.next_name).2.advance k

/-- List of the first `k` names drawn from a derivator. -/
def namesFrom (d : NameDerivator) : Nat → List String
  | 0 => []
  | k + 1 => (d.next_name).1 :: namesFrom (d.next_name).2 k

/-- Name produced by the `k`-th call of `next_name` (0-based). -/
def nameAt (d : NameDerivator) (k : Nat) : String := ((d.advance k).next_name).1

/-- Calibration pair from `src/lib/autoconf.rs` (`QueryTimes`), with the `f64`
fields modelled as `Option ℚ` (`none` is NaN). -/
structure QueryTimes where
  miss : Option ℚ
  hit : Option ℚ
deriving DecidableEq

/-- Bit-slot tag from `src/lib/xipology.rs` (`XipoBits`). -/
inductive XipoBits where
  | Data : Nat → XipoBits
  | Decoy : XipoBits
  | Guard : XipoBits
  | Parity : XipoBits
  | Reservation : XipoBits
deriving DecidableEq

/-- One slot: a tag together with the DNS name carrying it (`type Xipo`). -/
abbrev Xipo := XipoBits × String

/-- Read-path error taxonomy from `src/lib/xipology.rs` (`ReadError`); the
`IO(io::Error)` variant is modelled as a payload-free constructor. -/
inductive ReadError where
  | Free : ReadError
  | Consumed : ReadError
  | Parity : ReadError
  | IOErr : ReadError
deriving DecidableEq

/-- Channel state from `src/lib/xipology.rs` (`Xipology`). -/
structure Xipology where
  derivator : NameDerivator
  decoy : NameDerivator
  secret : List Nat
  server : String
  query_times : Option QueryTimes
deriving DecidableEq

/-- Embedding of `Xipology::from_secret`: build the primary derivator, draw one
32-byte block from it to seed the decoy derivator, leave calibration unset. -/
def Xipology.from_secret (server : String) (secret : List Nat) : Xipology :=
  let r := (NameDerivator.from_secret secret).hkdf_extract_and_expand 32
  { derivator := r.2
    decoy := NameDerivator.from_secret r.1
    secret := secret
    server := server
    query_times := none }

/-- Embedding of `Xipology::reset`: rebuild the primary derivator from the
current secret, drop calibration, reseed the decoy derivator. -/
def Xipology.reset (x : Xipology) : Xipology :=
  let r := (NameDerivator.from_secret x.secret).hkdf_extract_and_expand 32
  { x with
    derivator := r.2
    decoy := NameDerivator.from_secret r.1
    query_times := none }

/-- Embedding of `Xipology::change_secret`: replace the secret, then reset. -/
def Xipology.change_secret (x : Xipology) (secret : List Nat) : Xipology :=
  Xipology.reset { x with secret := secret }

/-- Payload loop of `Xipology::byte_output` (`for bit in 0..8`): consume one
name per bit index, emit a `Data` pair only for set bits, toggling the parity
flag per emitted pair. -/
def dataLoop (byte : Nat) (d : NameDerivator) : List Nat → List Xipo × Bool × NameDerivator
  | [] => ([], false, d)
  | bit :: rest =>
      let r := dataLoop byte (d.next_name).2 rest
      if get_bit byte bit > 0 then
        ((XipoBits.Data bit, (d.next_name).1) :: r.1, !r.2.1, r.2.2)
      else r

/-- Embedding of `Xipology::byte_output`: consume 11 names (reservation, the
untouched guard, 8 data slots, parity) and emit the pairs that are set.  With
`DECOY_BITS = 0` the decoy branch of the source is dead code and consumes
nothing. -/
def Xipology.byte_output (x : Xipology) (byte : Nat) : List Xipo × Xipology :=
  let n0 := (x.derivator.next_name).1
  let d0 := (x.derivator.next_name).2
  let d1 := (d0.next_name).2
  let r := dataLoop byte d1 (List.range 8)
  let np := (r.2.2.next_name).1
  let d3 := (r.2.2.next_name).2
  ((XipoBits.Reservation, n0) ::
     (r.1 ++ (if r.2.1 then [(XipoBits.Parity, np)] else [])),
   { x with derivator := d3 })

/-- Embedding of `Xipology::write_bits`: the probes are fanned out over the
slot list; the first component records the sequence of names queried, in the
order the slots are enumerated (the source applies no reordering), and the
second is the returned `Ok(output.len())`. -/
def Xipology.write_bits (_x : Xipology) (output : List Xipo) : List String × Nat :=
  (output.map (fun p => p.2), output.length)

/-- Embedding of `Xipology::write_byte`. -/
def Xipology.write_byte (x : Xipology) (byte : Nat) : (List String × Nat) × Xipology :=
  let r := x.byte_output byte
  (Xipology.write_bits r.2 r.1, r.2)

/-- Payload loop of `Xipology::write_bytes`: one frame per byte, appended in
buffer order while threading the derivator. -/
def frameChain (x : Xipology) : List Nat → List Xipo × Xipology
  | [] => ([], x)
  | b :: rest =>
      let r := x.byte_output b
      let r2 := frameChain r.2 rest
      (r.1 ++ r2.1, r2.2)

/-- Embedding of `Xipology::write_bytes`: `assert!(len > 0 && len < 255)` is
modelled as returning `none` when the length is out of range; otherwise a
length frame is emitted first (the cast `len as u8` is the identity for
`len < 255`), followed by one frame per payload byte. -/
def Xipology.write_bytes (x : Xipology) (buf : List Nat) :
    Option ((List String × Nat) × Xipology) :=
  let len := buf.length
  if len > 0 ∧ len < 255 then
    let r := x.byte_output len
    let r2 := frameChain r.2 buf
    some (Xipology.write_bits r2.2 (r.1 ++ r2.1), r2.2)
  else none

/-- Data-slot loop of `Xipology::byte_input`: one `Data` slot per bit index. -/
def inputLoop (d : NameDerivator) : List Nat → List Xipo × NameDerivator
  | [] => ([], d)
  | bit :: rest =>
      let r := inputLoop (d.next_name).2 rest
      ((XipoBits.Data bit, (d.next_name).1) :: r.1, r.2)

/-- Embedding of `Xipology::byte_input`: the fixed 11-slot read layout
`[Reservation, Guard, Data(0..7), Parity]`. -/
def Xipology.byte_input (x : Xipology) : List Xipo × Xipology :=
  let n0 := (x.derivator.next_name).1
  let d0 := (x.derivator.next_name).2
  let n1 := (d0.next_name).1
  let d1 := (d0.next_name).2
  let r := inputLoop d1 (List.range 8)
  let np := (r.2.next_name).1
  let d3 := (r.2.next_name).2
  ((XipoBits.Reservation, n0) :: (XipoBits.Guard, n1) ::
     (r.1 ++ [(XipoBits.Parity, np)]),
   { x with derivator := d3 })

/-- NaN-propagating subtraction on the `Option ℚ` model of `f64`. -/
def fsub : Option ℚ → Option ℚ → Option ℚ
  | some a, some b => some (a - b)
  | _, _ => none

/-- NaN-propagating absolute value on the `Option ℚ` model of `f64`. -/
def fabs : Option ℚ → Option ℚ
  | some a => some |a|
  | none => none

/-- IEEE-754 `<` on the `Option ℚ` model of `f64`: any comparison involving
NaN is false. -/
def flt : Option ℚ → Option ℚ → Bool
  | some a, some b => decide (a < b)
  | _, _ => false

/-- Embedding of the `is_hit` closure of `Xipology::read_bits`: nearest
centroid, `|hit − δ| < |miss − δ|`. -/
def is_hit (qt : QueryTimes) (delay : Option ℚ) : Bool :=
  let md := fabs (fsub qt.miss delay)
  let hd := fabs (fsub qt.hit delay)
  flt hd md

/-- Classification step of `Xipology::read_bits`: each slot keeps its tag when
its probed latency classifies as a hit and is downgraded to `Decoy` otherwise.
The resolver is abstracted as the `delays` function (a probe error is a `none`
latency, the NaN of the source). -/
def classifySlots (qt : QueryTimes) (delays : String → Option ℚ) (input : List Xipo) :
    List XipoBits :=
  input.map (fun p => if is_hit qt (delays p.2) then p.1 else XipoBits.Decoy)

/-- Body of the parity-and-byte accumulation loop of `Xipology::read_bits`:
a `Data(n)` bit toggles the parity flag and sets bit `n` of the byte; every
other tag is ignored. -/
def readStep (acc : Bool × Nat) (b : XipoBits) : Bool × Nat :=
  match b with
  | XipoBits.Data n => (!acc.1, set_bit acc.2 n)
  | _ => acc

/-- Parity-and-byte accumulation loop of `Xipology::read_bits`. -/
def readFold (bits : List XipoBits) : Bool × Nat :=
  bits.foldl readStep (false, 0)

/-- Embedding of `Xipology::read_bits`: classify all slots, then resolve
Free / Consumed / Parity / Ok in the source's order. -/
def Xipology.read_bits (qt : QueryTimes) (delays : String → Option ℚ)
    (input : List Xipo) : Except ReadError Nat :=
  let bits := classifySlots qt delays input
  if XipoBits.Reservation ∉ bits then Except.error ReadError.Free
  else if XipoBits.Guard ∈ bits then Except.error ReadError.Consumed
  else
    let pb := readFold bits
    if (pb.1 = true ∧ XipoBits.Parity ∉ bits) ∨ (pb.1 = false ∧ XipoBits.Parity ∈ bits) then
      Except.error ReadError.Parity
    else Except.ok pb.2

/-- Embedding of `Xipology::read_byte`: lazily calibrate (the external
`test_query_time_differences` probe is abstracted as the `calib` argument,
whose failure is the source's I/O error and leaves the channel untouched),
then read one frame. -/
def Xipology.read_byte (x : Xipology) (delays : String → Option ℚ)
    (calib : Except Unit QueryTimes) : Except ReadError Nat × Xipology :=
  match x.query_times with
  | none =>
      match calib with
      | Except.error _ => (Except.error ReadError.IOErr, x)
      | Except.ok qt =>
          let x1 : Xipology := { x with query_times := some qt }
          let r := x1.byte_input
          (Xipology.read_bits qt delays r.1, r.2)
  | some qt =>
      let r := x.byte_input
      (Xipology.read_bits qt delays r.1, r.2)

/-- Frame-collection loop of `Xipology::read_bytes`: `len` byte-input frames,
threading the derivator. -/
def inputsLoop (x : Xipology) : Nat → List (List Xipo) × Xipology
  | 0 => ([], x)
  | k + 1 =>
      let r := x.byte_input
      let r2 := inputsLoop r.2 k
      (r.1 :: r2.1, r2.2)

/-- Body of `Xipology::read_bytes` once calibration is available: read the
length byte (propagating its error), then decode that many payload frames,
substituting the ASCII space 0x20 for frames whose decode fails. -/
def readBytesBody (x : Xipology) (delays : String → Option ℚ) (qt : QueryTimes) :
    Except ReadError (List Nat) × Xipology :=
  let r := x.read_byte delays (Except.ok qt)
  match r.1 with
  | Except.error e => (Except.error e, r.2)
  | Except.ok len =>
      let r2 := inputsLoop r.2 len
      (Except.ok (r2.1.map (fun input =>
          match Xipology.read_bits qt delays input with
          | Except.ok b => b
          | Except.error _ => 32)), r2.2)

/-- Embedding of `Xipology::read_bytes`: lazily calibrate, then run the body. -/
def Xipology.read_bytes (x : Xipology) (delays : String → Option ℚ)
    (calib : Except Unit QueryTimes) : Except ReadError (List Nat) × Xipology :=
  match x.query_times with
  | none =>
      match calib with
      | Except.error _ => (Except.error ReadError.IOErr, x)
      | Except.ok qt => readBytesBody { x with query_times := some qt } delays qt
  | some qt => readBytesBody x delays qt

/-- Probe enumeration order of `Xipology::read_bits`: the parallel fan-out
iterates the input slot list as given; the source applies no reordering. -/
def read_probe_order (input : List Xipo) : List String := input.map (fun p => p.2)

/-- Resolver latencies of a perfectly-caching resolver: every name in
`hitNames` answers with the hit latency `h`, every other name with the miss
latency `m`. -/
def perfectDelays (hitNames : List String) (m h : ℚ) : String → Option ℚ :=
  fun n => if n ∈ hitNames then some h else some m

/-- One step of `advance` peels one `next_name` call. -/
theorem advance_succ (d : NameDerivator) (k : Nat) :
    d.advance (k + 1) = (d.next_name).2.advance k := rfl

/-- Advancing twice is advancing by the sum. -/
theorem advance_advance (d : NameDerivator) (j i : Nat) :
    (d.advance j).advance i = d.advance (j + i) := by
  induction j generalizing d with
  | zero => rw [Nat.zero_add]; rfl
  | succ j ih =>
      rw [Nat.succ_add, advance_succ, advance_succ]
      exact ih (d.next_name).2

/-- Shifting the start point of `nameAt` by an advance. -/
theorem nameAt_advance (d : NameDerivator) (j i : Nat) :
    nameAt (d.advance j) i = nameAt d (j + i) := by
  rw [nameAt, nameAt, advance_advance]

/-- The name list is the range of `nameAt`. -/
theorem namesFrom_eq_map (d : NameDerivator) (k : Nat) :
    namesFrom d k = (List.range k).map (nameAt d) := by
  induction k generalizing d with
  | zero => rfl
  | succ k ih =>
      rw [List.range_succ_eq_map]
      simp only [namesFrom, List.map_cons, List.map_map]
      refine congrArg₂ List.cons rfl ?_
      rw [ih]
      exact List.map_congr_left (fun i _ => rfl)

/-- Length of the name list. -/
theorem namesFrom_length (d : NameDerivator) (k : Nat) :
    (namesFrom d k).length = k := by
  rw [namesFrom_eq_map, List.length_map, List.length_range]

/-- On a duplicate-free stretch of the name stream, `nameAt` is injective. -/
theorem nodup_nameAt_inj {d : NameDerivator} (h : (namesFrom d 11).Nodup)
    {i j : Nat} (hi : i < 11) (hj : j < 11) (he : nameAt d i = nameAt d j) :
    i = j := by
  rw [namesFrom_eq_map] at h
  have hi' : i < ((List.range 11).map (nameAt d)).length := by
    simpa using hi
  have hj' : j < ((List.range 11).map (nameAt d)).length := by
    simpa using hj
  have hg : ((List.range 11).map (nameAt d)).get ⟨i, hi'⟩ =
      ((List.range 11).map (nameAt d)).get ⟨j, hj'⟩ := by
    simpa using he
  have := List.Nodup.get_inj_iff h (i := ⟨i, hi'⟩) (j := ⟨j, hj'⟩)
  simpa using this.mp hg

/-- Pairing a list with its image under a map. -/
theorem zip_self_map {α β : Type} (l : List α) (f : α → β) :
    l.zip (l.map f) = l.map (fun a => (a, f a)) := by
  have := List.zip_map' (id : α → α) f l
  simpa using this

/-- The derivator state left by the payload loop of `byte_output`. -/
theorem dataLoop_state (byte : Nat) (d : NameDerivator) (l : List Nat) :
    (dataLoop byte d l).2.2 = d.advance l.length := by
  induction l generalizing d with
  | nil => rfl
  | cons bit rest ih =>
      rw [List.length_cons, advance_succ]
      simp only [dataLoop]
      split
      · exact ih (d.next_name).2
      · exact ih (d.next_name).2

/-- The pairs emitted by the payload loop of `byte_output`: one `Data` pair
per set bit, carrying the name consumed at that position. -/
theorem dataLoop_out (byte : Nat) (d : NameDerivator) (l : List Nat) :
    (dataLoop byte d l).1 =
      (l.zip (namesFrom d l.length)).filterMap
        (fun p => if get_bit byte p.1 > 0 then some (XipoBits.Data p.1, p.2) else none) := by
  induction l generalizing d with
  | nil => rfl
  | cons bit rest ih =>
      simp only [dataLoop, List.length_cons, namesFrom, List.zip_cons_cons,
        List.filterMap_cons]
      by_cases hc : get_bit byte bit > 0
      · simp only [if_pos hc, ih]
      · simp only [if_neg hc, ih]

/-- The parity flag computed by the payload loop of `byte_output` is the
parity of the number of emitted `Data` pairs. -/
theorem dataLoop_parity (byte : Nat) (d : NameDerivator) (l : List Nat) :
    (dataLoop byte d l).2.1 =
      decide ((l.countP (fun bit => decide (0 < get_bit byte bit))) % 2 = 1) := by
  induction l generalizing d with
  | nil => rfl
  | cons bit rest ih =>
      simp only [dataLoop, List.countP_cons]
      by_cases hc : get_bit byte bit > 0
      · have h1 : decide (0 < get_bit byte bit) = true := by simpa using hc
        simp only [if_pos hc, h1, if_pos trivial, ih (d.next_name).2]
        have h2 : decide ((rest.countP (fun bit => decide (0 < get_bit byte bit)) + 1) % 2 = 1) =
            decide (¬(rest.countP (fun bit => decide (0 < get_bit byte bit)) % 2 = 1)) :=
          decide_eq_decide.mpr (by omega)
        rw [h2, decide_not]
      · have h1 : decide (0 < get_bit byte bit) = false := by simpa using hc
        simp only [if_neg hc, h1, ih (d.next_name).2]
        simp

/-- The derivator state left by the data loop of `byte_input`. -/
theorem inputLoop_state (d : NameDerivator) (l : List Nat) :
    (inputLoop d l).2 = d.advance l.length := by
  induction l generalizing d with
  | nil => rfl
  | cons bit rest ih =>
      rw [List.length_cons, advance_succ]
      simp only [inputLoop]
      exact ih (d.next_name).2

/-- The slots produced by the data loop of `byte_input`: one `Data` slot per
bit index, carrying the name consumed at that position. -/
theorem inputLoop_out (d : NameDerivator) (l : List Nat) :
    (inputLoop d l).1 =
      (l.zip (namesFrom d l.length)).map (fun p => (XipoBits.Data p.1, p.2)) := by
  induction l generalizing d with
  | nil => rfl
  | cons bit rest ih =>
      simp only [inputLoop, List.length_cons, namesFrom, List.zip_cons_cons,
        List.map_cons]
      rw [ih]

/-- Number of set bits of a byte among bit positions 0..7. -/
def dataCount (b : Nat) : Nat :=
  (List.range 8).countP (fun i => decide (0 < get_bit b i))

/-- Slot list emitted by `byte_output`: the reservation pair on the name at
position 0, a `Data(i)` pair on the name at position `2 + i` for every set
bit `i`, and a parity pair on the name at position 10 exactly when the number
of set bits is odd.  The guard name at position 1 is consumed but never
emitted. -/
theorem byte_output_fst (x : Xipology) (b : Nat) :
    (x.byte_output b).1 =
      (XipoBits.Reservation, nameAt x.derivator 0) ::
        ((List.range 8).filterMap
            (fun i => if get_bit b i > 0 then
                some (XipoBits.Data i, nameAt x.derivator (2 + i)) else none)
          ++ (if dataCount b % 2 = 1 then [(XipoBits.Parity, nameAt x.derivator 10)] else [])) := by
  have hd1 : ((x.derivator.next_name).2.next_name).2 = x.derivator.advance 2 := rfl
  simp only [Xipology.byte_output, hd1, dataLoop_out, dataLoop_parity, dataLoop_state,
    List.length_range, namesFrom_eq_map, zip_self_map, List.filterMap_map,
    advance_advance, decide_eq_true_eq, dataCount]
  refine congrArg₂ List.cons rfl (congrArg₂ List.append ?_ rfl)
  refine congrArg (fun f => List.filterMap f (List.range 8)) (funext fun i => ?_)
  simp only [Function.comp_apply, nameAt_advance]

/-- Channel state left by `byte_output`: the primary derivator advances by
exactly 11 names; nothing else changes. -/
theorem byte_output_snd (x : Xipology) (b : Nat) :
    (x.byte_output b).2 = { x with derivator := x.derivator.advance 11 } := by
  have hd1 : ((x.derivator.next_name).2.next_name).2 = x.derivator.advance 2 := rfl
  simp only [Xipology.byte_output, hd1, dataLoop_state, List.length_range, advance_advance]
  rfl

/-- Slot list probed by `byte_input`: the fixed 11-slot layout over the names
at positions 0..10. -/
theorem byte_input_fst (x : Xipology) :
    (x.byte_input).1 =
      (XipoBits.Reservation, nameAt x.derivator 0) ::
        (XipoBits.Guard, nameAt x.derivator 1) ::
        ((List.range 8).map (fun i => (XipoBits.Data i, nameAt x.derivator (2 + i)))
          ++ [(XipoBits.Parity, nameAt x.derivator 10)]) := by
  have hd1 : ((x.derivator.next_name).2.next_name).2 = x.derivator.advance 2 := rfl
  simp only [Xipology.byte_input, hd1, inputLoop_out, inputLoop_state,
    List.length_range, namesFrom_eq_map, zip_self_map, List.map_map,
    advance_advance]
  refine congrArg₂ List.cons rfl (congrArg₂ List.cons rfl (congrArg₂ List.append ?_ rfl))
  refine congrArg (fun f => List.map f (List.range 8)) (funext fun i => ?_)
  simp only [Function.comp_apply, nameAt_advance]

/-- Channel state left by `byte_input`: the primary derivator advances by
exactly 11 names; nothing else changes. -/
theorem byte_input_snd (x : Xipology) :
    (x.byte_input).2 = { x with derivator := x.derivator.advance 11 } := by
  have hd1 : ((x.derivator.next_name).2.next_name).2 = x.derivator.advance 2 := rfl
  simp only [Xipology.byte_input, hd1, inputLoop_state, List.length_range, advance_advance]
  rfl

/-- Boolean test for the `Data` tag. -/
def isDataB : XipoBits → Bool
  | XipoBits.Data _ => true
  | _ => false

/-- Bit `j` of the byte accumulated by the read fold: set exactly when a
`Data(j)` tag occurs in the classified list (or was already set). -/
theorem foldl_readStep_snd (bits : List XipoBits) (acc : Bool × Nat) (j : Nat) :
    ((bits.foldl readStep acc).2).testBit j =
      (acc.2.testBit j || decide (XipoBits.Data j ∈ bits)) := by
  induction bits generalizing acc with
  | nil => simp
  | cons b rest ih =>
      rw [List.foldl_cons, ih]
      cases b with
      | Data n =>
          simp only [readStep, set_bit, Nat.one_shiftLeft, Nat.testBit_or,
            Nat.testBit_two_pow, List.mem_cons, XipoBits.Data.injEq]
          by_cases hnj : n = j
          · simp [hnj]
          · simp [hnj, Ne.symm hnj]
      | Decoy => simp [readStep, List.mem_cons]
      | Guard => simp [readStep, List.mem_cons]
      | Parity => simp [readStep, List.mem_cons]
      | Reservation => simp [readStep, List.mem_cons]

/-- Parity flag accumulated by the read fold: the parity of the number of
`Data` tags in the classified list. -/
theorem foldl_readStep_fst (bits : List XipoBits) (acc : Bool × Nat) :
    (bits.foldl readStep acc).1 =
      (acc.1).xor (decide ((bits.countP isDataB) % 2 = 1)) := by
  induction bits generalizing acc with
  | nil => simp
  | cons b rest ih =>
      rw [List.foldl_cons, ih]
      cases b with
      | Data n =>
          simp only [readStep, List.countP_cons, isDataB, if_pos trivial]
          have h2 : decide (((rest.countP isDataB) + 1) % 2 = 1) =
              !decide ((rest.countP isDataB) % 2 = 1) := by
            by_cases hc : (rest.countP isDataB) % 2 = 1
            · have h5 : ¬(((rest.countP isDataB) + 1) % 2 = 1) := by omega
              simp [hc, h5]
            · have h5 : ((rest.countP isDataB) + 1) % 2 = 1 := by omega
              simp [hc, h5]
          rw [h2]
          cases acc.1 <;> cases decide ((rest.countP isDataB) % 2 = 1) <;> rfl
      | Decoy => simp [readStep, List.countP_cons, isDataB]
      | Guard => simp [readStep, List.countP_cons, isDataB]
      | Parity => simp [readStep, List.countP_cons, isDataB]
      | Reservation => simp [readStep, List.countP_cons, isDataB]

/-- Parity flag of the read fold from the zero accumulator. -/
theorem readFold_fst (bits : List XipoBits) :
    (readFold bits).1 = decide ((bits.countP isDataB) % 2 = 1) := by
  rw [readFold, foldl_readStep_fst]
  simp

/-- Byte of the read fold from the zero accumulator, bit by bit. -/
theorem readFold_snd_testBit (bits : List XipoBits) (j : Nat) :
    ((readFold bits).2).testBit j = decide (XipoBits.Data j ∈ bits) := by
  rw [readFold, foldl_readStep_snd]
  simp

/-- Outcome of `read_bits` as a decision chain over the classified slot list:
Free when no reservation hit, else Consumed when a guard hit, else Parity
when the parity of the hit data bits disagrees with the parity slot, else the
accumulated byte. -/
theorem read_bits_eq (qt : QueryTimes) (delays : String → Option ℚ) (input : List Xipo) :
    Xipology.read_bits qt delays input =
      (if XipoBits.Reservation ∉ classifySlots qt delays input then
        Except.error ReadError.Free
       else if XipoBits.Guard ∈ classifySlots qt delays input then
        Except.error ReadError.Consumed
       else if ¬((((classifySlots qt delays input).countP isDataB) % 2 = 1) ↔
              XipoBits.Parity ∈ classifySlots qt delays input) then
        Except.error ReadError.Parity
       else Except.ok ((readFold (classifySlots qt delays input)).2)) := by
  rw [Xipology.read_bits]
  refine if_congr Iff.rfl rfl (if_congr Iff.rfl rfl (if_congr ?_ rfl rfl))
  rw [readFold_fst]
  by_cases hp : ((classifySlots qt delays input).countP isDataB) % 2 = 1 <;>
    by_cases hq : XipoBits.Parity ∈ classifySlots qt delays input <;>
      simp [hp, hq]

/-- The nearest-centroid comparison on finite latencies. -/
theorem is_hit_some (m h δ : ℚ) :
    is_hit ⟨some m, some h⟩ (some δ) = decide (|h - δ| < |m - δ|) := rfl

/-- A NaN latency (probe error) never classifies as a hit. -/
theorem is_hit_none (qt : QueryTimes) : is_hit qt none = false := by
  obtain ⟨ms, hs⟩ := qt
  cases ms <;> cases hs <;> rfl

/-- Under a perfectly-caching resolver the classifier is exactly membership
in the writer's probed-name set. -/
theorem is_hit_perfect (S : List String) (m h : ℚ) (hne : m ≠ h) (nm : String) :
    is_hit ⟨some m, some h⟩ (perfectDelays S m h nm) = decide (nm ∈ S) := by
  by_cases hmem : nm ∈ S
  · simp [perfectDelays, hmem, is_hit_some, sub_self, abs_zero, abs_pos,
      sub_ne_zero, hne]
  · simp [perfectDelays, hmem, is_hit_some, sub_self, abs_zero, abs_nonneg, not_lt]

/-- Names probed by the writer of one frame: the reservation name, the data
names of the set bits, and the parity name when the bit count is odd. -/
theorem writer_names (x : Xipology) (b : Nat) :
    ((x.byte_output b).1).map Prod.snd =
      nameAt x.derivator 0 ::
        ((List.range 8).filterMap
            (fun i => if get_bit b i > 0 then some (nameAt x.derivator (2 + i)) else none)
          ++ (if dataCount b % 2 = 1 then [nameAt x.derivator 10] else [])) := by
  rw [byte_output_fst]
  simp only [List.map_cons, List.map_append, List.map_filterMap, apply_ite
    (List.map (Prod.snd : Xipo → String)), List.map_nil]
  refine congrArg₂ List.cons rfl (congrArg₂ List.append ?_ rfl)
  refine congrArg (fun f => List.filterMap f (List.range 8)) (funext fun i => ?_)
  by_cases hc : get_bit b i > 0 <;> simp [hc]

/-- The reservation name is always probed by the writer. -/
theorem writer_mem_res (x : Xipology) (b : Nat) :
    nameAt x.derivator 0 ∈ ((x.byte_output b).1).map Prod.snd := by
  rw [writer_names]
  exact List.mem_cons_self _ _

/-- The guard name is never probed by the writer. -/
theorem writer_not_mem_guard {x : Xipology} (b : Nat)
    (hnd : (namesFrom x.derivator 11).Nodup) :
    nameAt x.derivator 1 ∉ ((x.byte_output b).1).map Prod.snd := by
  rw [writer_names]
  intro hmem
  rcases List.mem_cons.mp hmem with he | hmem2
  · have := nodup_nameAt_inj hnd (by norm_num) (by norm_num) he
    omega
  rcases List.mem_append.mp hmem2 with hdata | hpar
  · rcases List.mem_filterMap.mp hdata with ⟨i, hi, hfi⟩
    have hi8 : i < 8 := List.mem_range.mp hi
    rw [Option.ite_none_right_eq_some, Option.some.injEq] at hfi
    have := nodup_nameAt_inj hnd (by norm_num) (by omega) hfi.2.symm
    omega
  · by_cases hpc : dataCount b % 2 = 1
    · rw [if_pos hpc, List.mem_singleton] at hpar
      have := nodup_nameAt_inj hnd (by norm_num) (by norm_num) hpar
      omega
    · rw [if_neg hpc] at hpar
      exact List.not_mem_nil _ hpar

/-- A data name is probed by the writer exactly when its bit is set. -/
theorem writer_mem_data {x : Xipology} (b : Nat)
    (hnd : (namesFrom x.derivator 11).Nodup) {i : Nat} (hi8 : i < 8) :
    (nameAt x.derivator (2 + i) ∈ ((x.byte_output b).1).map Prod.snd) ↔
      0 < get_bit b i := by
  rw [writer_names]
  constructor
  · intro hmem
    rcases List.mem_cons.mp hmem with he | hmem2
    · have := nodup_nameAt_inj hnd (by omega) (by norm_num) he
      omega
    rcases List.mem_append.mp hmem2 with hdata | hpar
    · rcases List.mem_filterMap.mp hdata with ⟨i', hi', hfi⟩
      have hi8' : i' < 8 := List.mem_range.mp hi'
      rw [Option.ite_none_right_eq_some, Option.some.injEq] at hfi
      have hii : 2 + i' = 2 + i :=
        nodup_nameAt_inj hnd (by omega) (by omega) hfi.2
      have : i' = i := by omega
      exact this ▸ hfi.1
    · by_cases hpc : dataCount b % 2 = 1
      · rw [if_pos hpc, List.mem_singleton] at hpar
        have := nodup_nameAt_inj hnd (by omega) (by norm_num) hpar
        omega
      · rw [if_neg hpc] at hpar
        exact absurd hpar (List.not_mem_nil _)
  · intro hbit
    refine List.mem_cons_of_mem _ (List.mem_append_left _ ?_)
    exact List.mem_filterMap.mpr ⟨i, List.mem_range.mpr hi8, by simp [hbit]⟩

/-- The parity name is probed by the writer exactly when the number of set
data bits is odd. -/
theorem writer_mem_parity {x : Xipology} (b : Nat)
    (hnd : (namesFrom x.derivator 11).Nodup) :
    (nameAt x.derivator 10 ∈ ((x.byte_output b).1).map Prod.snd) ↔
      dataCount b % 2 = 1 := by
  rw [writer_names]
  constructor
  · intro hmem
    rcases List.mem_cons.mp hmem with he | hmem2
    · have := nodup_nameAt_inj hnd (by norm_num) (by norm_num) he
      omega
    rcases List.mem_append.mp hmem2 with hdata | hpar
    · rcases List.mem_filterMap.mp hdata with ⟨i', hi', hfi⟩
      have hi8' : i' < 8 := List.mem_range.mp hi'
      rw [Option.ite_none_right_eq_some, Option.some.injEq] at hfi
      have := nodup_nameAt_inj hnd (by omega) (by norm_num) hfi.2
      omega
    · by_cases hpc : dataCount b % 2 = 1
      · exact hpc
      · rw [if_neg hpc] at hpar
        exact absurd hpar (List.not_mem_nil _)
  · intro hpc
    refine List.mem_cons_of_mem _ (List.mem_append_right _ ?_)
    rw [if_pos hpc]
    exact List.mem_singleton.mpr rfl

/-- The positivity test the code applies to `get_bit` agrees with `testBit`. -/
theorem get_bit_pos_iff (b i : Nat) : 0 < get_bit b i ↔ b.testBit i := by
  rw [get_bit, Nat.and_one_is_mod, Nat.shiftRight_eq_div_pow]
  simp only [Nat.testBit_to_div_mod, decide_eq_true_eq]
  omega

/-- Classified tag list a perfect reader obtains for a frame written with
byte `b`: reservation hit, guard miss, each data slot hit exactly on the set
bits, parity slot hit exactly on odd bit count. -/
def specBits (b : Nat) : List XipoBits :=
  XipoBits.Reservation :: XipoBits.Decoy ::
    ((List.range 8).map
        (fun i => if 0 < get_bit b i then XipoBits.Data i else XipoBits.Decoy)
      ++ [if dataCount b % 2 = 1 then XipoBits.Parity else XipoBits.Decoy])

/-- Under a perfectly-caching resolver, the classification of the read-side
slot list against the write-side hit set is exactly `specBits`. -/
theorem classified_input (x : Xipology) (b : Nat) (m h : ℚ) (hne : m ≠ h)
    (hnd : (namesFrom x.derivator 11).Nodup) :
    classifySlots ⟨some m, some h⟩
        (perfectDelays (((x.byte_output b).1).map Prod.snd) m h)
        ((x.byte_input).1) = specBits b := by
  rw [byte_input_fst, classifySlots, specBits]
  simp only [List.map_cons, List.map_append, List.map_map]
  refine congrArg₂ List.cons ?_ (congrArg₂ List.cons ?_ (congrArg₂ List.append ?_ ?_))
  · rw [is_hit_perfect _ _ _ hne, if_pos (decide_eq_true (writer_mem_res x b))]
  · rw [is_hit_perfect _ _ _ hne,
      if_neg (fun hd => writer_not_mem_guard b hnd (of_decide_eq_true hd))]
  · refine List.map_congr_left (fun i hi => ?_)
    have hi8 : i < 8 := List.mem_range.mp hi
    rw [Function.comp_apply, is_hit_perfect _ _ _ hne]
    by_cases hbit : 0 < get_bit b i
    · rw [if_pos (decide_eq_true ((writer_mem_data b hnd hi8).mpr hbit)), if_pos hbit]
    · have hm : nameAt x.derivator (2 + i) ∉ ((x.byte_output b).1).map Prod.snd :=
        fun hmm => hbit ((writer_mem_data b hnd hi8).mp hmm)
      rw [if_neg (fun hd => hm (of_decide_eq_true hd)), if_neg hbit]
  · simp only [List.map_cons, List.map_nil]
    rw [is_hit_perfect _ _ _ hne]
    by_cases hpc : dataCount b % 2 = 1
    · rw [if_pos (decide_eq_true ((writer_mem_parity b hnd).mpr hpc)), if_pos hpc]
    · have hm : nameAt x.derivator 10 ∉ ((x.byte_output b).1).map Prod.snd :=
        fun hmm => hpc ((writer_mem_parity b hnd).mp hmm)
      rw [if_neg (fun hd => hm (of_decide_eq_true hd)), if_neg hpc]

/-- The perfect classification always contains the reservation tag. -/
theorem specBits_res (b : Nat) : XipoBits.Reservation ∈ specBits b :=
  List.mem_cons_self _ _

/-- The perfect classification never contains the guard tag. -/
theorem specBits_guard (b : Nat) : XipoBits.Guard ∉ specBits b := by
  intro hmem
  rw [specBits] at hmem
  rcases List.mem_cons.mp hmem with h1 | hmem
  · exact absurd h1 (by simp)
  rcases List.mem_cons.mp hmem with h1 | hmem
  · exact absurd h1 (by simp)
  rcases List.mem_append.mp hmem with h1 | h1
  · rcases List.mem_map.mp h1 with ⟨i, _, hfi⟩
    by_cases hbit : 0 < get_bit b i
    · rw [if_pos hbit] at hfi
      exact absurd hfi (by simp)
    · rw [if_neg hbit] at hfi
      exact absurd hfi (by simp)
  · rw [List.mem_singleton] at h1
    by_cases hpc : dataCount b % 2 = 1
    · rw [if_pos hpc] at h1
      exact absurd h1 (by simp)
    · rw [if_neg hpc] at h1
      exact absurd h1 (by simp)

/-- The perfect classification contains the parity tag exactly on odd bit
count. -/
theorem specBits_parity_mem (b : Nat) :
    (XipoBits.Parity ∈ specBits b) ↔ dataCount b % 2 = 1 := by
  constructor
  · intro hmem
    rw [specBits] at hmem
    rcases List.mem_cons.mp hmem with h1 | hmem
    · exact absurd h1 (by simp)
    rcases List.mem_cons.mp hmem with h1 | hmem
    · exact absurd h1 (by simp)
    rcases List.mem_append.mp hmem with h1 | h1
    · rcases List.mem_map.mp h1 with ⟨i, _, hfi⟩
      by_cases hbit : 0 < get_bit b i
      · rw [if_pos hbit] at hfi
        exact absurd hfi (by simp)
      · rw [if_neg hbit] at hfi
        exact absurd hfi (by simp)
    · rw [List.mem_singleton] at h1
      by_cases hpc : dataCount b % 2 = 1
      · exact hpc
      · rw [if_neg hpc] at h1
        exact absurd h1 (by simp)
  · intro hpc
    rw [specBits]
    refine List.mem_cons_of_mem _ (List.mem_cons_of_mem _ (List.mem_append_right _ ?_))
    rw [if_pos hpc]
    exact List.mem_singleton.mpr rfl

/-- Data-tag count of the perfect classification. -/
theorem specBits_count (b : Nat) : (specBits b).countP isDataB = dataCount b := by
  rw [specBits]
  simp only [List.countP_cons, List.countP_append, List.countP_map]
  have h1 : (List.range 8).countP (isDataB ∘ fun i =>
      if 0 < get_bit b i then XipoBits.Data i else XipoBits.Decoy) = dataCount b := by
    refine List.countP_congr (fun i _ => ?_)
    by_cases hbit : 0 < get_bit b i <;> simp [hbit, isDataB]
  rw [h1]
  by_cases hpc : dataCount b % 2 = 1 <;> simp [hpc, isDataB]

/-- Data-tag membership of the perfect classification. -/
theorem specBits_data_mem (b j : Nat) :
    (XipoBits.Data j ∈ specBits b) ↔ (j < 8 ∧ 0 < get_bit b j) := by
  constructor
  · intro hmem
    rw [specBits] at hmem
    rcases List.mem_cons.mp hmem with h1 | hmem
    · exact absurd h1 (by simp)
    rcases List.mem_cons.mp hmem with h1 | hmem
    · exact absurd h1 (by simp)
    rcases List.mem_append.mp hmem with h1 | h1
    · rcases List.mem_map.mp h1 with ⟨i, hi, hfi⟩
      have hi8 : i < 8 := List.mem_range.mp hi
      by_cases hbit : 0 < get_bit b i
      · rw [if_pos hbit] at hfi
        have : j = i := by
          have := hfi
          simp only [XipoBits.Data.injEq] at this
          exact this.symm
        exact ⟨this ▸ hi8, this ▸ hbit⟩
      · rw [if_neg hbit] at hfi
        exact absurd hfi (by simp)
    · rw [List.mem_singleton] at h1
      by_cases hpc : dataCount b % 2 = 1
      · rw [if_pos hpc] at h1
        exact absurd h1 (by simp)
      · rw [if_neg hpc] at h1
        exact absurd h1 (by simp)
  · rintro ⟨hj8, hbit⟩
    rw [specBits]
    refine List.mem_cons_of_mem _ (List.mem_cons_of_mem _ (List.mem_append_left _ ?_))
    refine List.mem_map.mpr ⟨j, List.mem_range.mpr hj8, ?_⟩
    rw [if_pos hbit]

/-- The byte rebuilt from the perfect classification is the written byte. -/
theorem specBits_byte {b : Nat} (hb : b < 256) : (readFold (specBits b)).2 = b := by
  refine Nat.eq_of_testBit_eq (fun j => ?_)
  rw [readFold_snd_testBit]
  by_cases hj8 : j < 8
  · by_cases hbit : 0 < get_bit b j
    · have hm := (specBits_data_mem b j).mpr ⟨hj8, hbit⟩
      simp [hm, (get_bit_pos_iff b j).mp hbit]
    · have hm : XipoBits.Data j ∉ specBits b :=
        fun hmm => hbit ((specBits_data_mem b j).mp hmm).2
      have hnb : ¬ b.testBit j := fun ht => hbit ((get_bit_pos_iff b j).mpr ht)
      simp [hm, hnb]
  · have hm : XipoBits.Data j ∉ specBits b :=
      fun hmm => hj8 ((specBits_data_mem b j).mp hmm).1
    have h256 : (256 : Nat) ≤ 2 ^ j := by
      calc (256 : Nat) = 2 ^ 8 := by norm_num
        _ ≤ 2 ^ j := Nat.pow_le_pow_right (by norm_num) (by omega)
    have hnb : b.testBit j = false :=
      Nat.testBit_lt_two_pow (lt_of_lt_of_le hb h256)
    simp [hm, hnb]

/-- C1: for every byte `b`, under a perfectly-caching resolver (every name
probed by the writer's `write_byte(b)` classifies as hit, every other name as
miss), a reader with the same secret at the same derivator position calling
`read_byte()` gets `Ok(b)`: the slot list built by `byte_input`, classified
against the hit set emitted by `byte_output(b)`, decodes back to exactly `b`.
The calibration is any pair of distinct finite centroids, and the 11 names of
the frame are pairwise distinct (as the HKDF-derived names are). -/
theorem c1_perfect_roundtrip (x : Xipology) (b : Nat) (hb : b < 256) (m h : ℚ)
    (hne : m ≠ h) (hq : x.query_times = some ⟨some m, some h⟩)
    (hnd : (namesFrom x.derivator 11).Nodup) (calib : Except Unit QueryTimes) :
    (x.read_byte (perfectDelays (((x.byte_output b).1).map Prod.snd) m h) calib).1 =
      Except.ok b := by
  simp only [Xipology.read_byte, hq]
  rw [read_bits_eq, classified_input x b m h hne hnd]
  rw [if_neg (fun hc => hc (specBits_res b))]
  rw [if_neg (specBits_guard b)]
  have hiff : ((specBits b).countP isDataB % 2 = 1) ↔ (XipoBits.Parity ∈ specBits b) := by
    rw [specBits_count]
    exact (specBits_parity_mem b).symm
  rw [if_neg (fun hc => hc hiff), specBits_byte hb]

/-- Concrete calibration pair used by the witnesses. -/
def wQt : QueryTimes := { miss := some 10000, hit := some 100 }

/-- Concrete calibrated channel used by the witnesses. -/
def wChan : Xipology :=
  { Xipology.from_secret ("198.51.100.7:53") [116, 101, 115, 116] with
    query_times := some wQt }

set_option maxRecDepth 100000 in
/-- Witness for C1 at byte 0x41 on a concrete calibrated channel. -/
theorem c1_perfect_roundtrip_witness :
    (65 : Nat) < 256 ∧ (10000 : ℚ) ≠ 100 ∧
    wChan.query_times = some ⟨some 10000, some 100⟩ ∧
    (namesFrom wChan.derivator 11).Nodup ∧
    (wChan.read_byte
        (perfectDelays (((wChan.byte_output 65).1).map Prod.snd) 10000 100)
        (Except.ok wQt)).1 = Except.ok 65 := by
  have hnd : (namesFrom wChan.derivator 11).Nodup := by decide
  exact ⟨by norm_num, by norm_num, rfl, hnd,
    c1_perfect_roundtrip wChan 65 (by norm_num) 10000 100 (by norm_num) rfl
      hnd (Except.ok wQt)⟩

/-- Free outcome of `read_bits`: exactly when no reservation tag survived
classification. -/
theorem read_bits_free_iff (qt : QueryTimes) (delays : String → Option ℚ)
    (input : List Xipo) :
    Xipology.read_bits qt delays input = Except.error ReadError.Free ↔
      XipoBits.Reservation ∉ classifySlots qt delays input := by
  rw [read_bits_eq]
  by_cases h1 : XipoBits.Reservation ∈ classifySlots qt delays input <;>
    by_cases h2 : XipoBits.Guard ∈ classifySlots qt delays input <;>
      by_cases h3 : (((classifySlots qt delays input).countP isDataB % 2 = 1) ↔
          XipoBits.Parity ∈ classifySlots qt delays input) <;>
        simp [h1, h2, h3]

/-- Consumed outcome of `read_bits`: exactly when a reservation and a guard
tag both survived classification. -/
theorem read_bits_consumed_iff (qt : QueryTimes) (delays : String → Option ℚ)
    (input : List Xipo) :
    Xipology.read_bits qt delays input = Except.error ReadError.Consumed ↔
      (XipoBits.Reservation ∈ classifySlots qt delays input ∧
        XipoBits.Guard ∈ classifySlots qt delays input) := by
  rw [read_bits_eq]
  by_cases h1 : XipoBits.Reservation ∈ classifySlots qt delays input <;>
    by_cases h2 : XipoBits.Guard ∈ classifySlots qt delays input <;>
      by_cases h3 : (((classifySlots qt delays input).countP isDataB % 2 = 1) ↔
          XipoBits.Parity ∈ classifySlots qt delays input) <;>
        simp [h1, h2, h3]

/-- Parity outcome of `read_bits`: exactly when the frame is claimed and
unconsumed but the data-bit parity disagrees with the parity slot. -/
theorem read_bits_parity_iff (qt : QueryTimes) (delays : String → Option ℚ)
    (input : List Xipo) :
    Xipology.read_bits qt delays input = Except.error ReadError.Parity ↔
      (XipoBits.Reservation ∈ classifySlots qt delays input ∧
        XipoBits.Guard ∉ classifySlots qt delays input ∧
        ¬(((classifySlots qt delays input).countP isDataB % 2 = 1) ↔
          XipoBits.Parity ∈ classifySlots qt delays input)) := by
  rw [read_bits_eq]
  by_cases h1 : XipoBits.Reservation ∈ classifySlots qt delays input <;>
    by_cases h2 : XipoBits.Guard ∈ classifySlots qt delays input <;>
      by_cases h3 : (((classifySlots qt delays input).countP isDataB % 2 = 1) ↔
          XipoBits.Parity ∈ classifySlots qt delays input) <;>
        simp [h1, h2, h3]

/-- Byte outcome of `read_bits`: exactly when the frame is claimed and
unconsumed, the parity check passes, and the byte carries exactly the bits of
the surviving `Data` tags. -/
theorem read_bits_ok_iff (qt : QueryTimes) (delays : String → Option ℚ)
    (input : List Xipo) (B : Nat) :
    Xipology.read_bits qt delays input = Except.ok B ↔
      (XipoBits.Reservation ∈ classifySlots qt delays input ∧
        XipoBits.Guard ∉ classifySlots qt delays input ∧
        (((classifySlots qt delays input).countP isDataB % 2 = 1) ↔
          XipoBits.Parity ∈ classifySlots qt delays input) ∧
        ∀ j, B.testBit j =
          decide (XipoBits.Data j ∈ classifySlots qt delays input)) := by
  rw [read_bits_eq]
  by_cases h1 : XipoBits.Reservation ∈ classifySlots qt delays input <;>
    by_cases h2 : XipoBits.Guard ∈ classifySlots qt delays input <;>
      by_cases h3 : (((classifySlots qt delays input).countP isDataB % 2 = 1) ↔
          XipoBits.Parity ∈ classifySlots qt delays input) <;>
        simp [h1, h2, h3]
  constructor
  · rintro rfl j
    exact readFold_snd_testBit _ j
  · intro hj
    refine Nat.eq_of_testBit_eq (fun j => ?_)
    rw [readFold_snd_testBit, hj j]

/-- C2: for every classified slot list, `read_bits` resolves the outcome in
the fixed precedence order: Free iff no hit slot carries the Reservation tag;
otherwise Consumed iff some hit slot carries the Guard tag; otherwise Parity
iff the parity of the hit Data bits disagrees with the presence of a hit
Parity slot; otherwise `Ok(byte)` where the byte has exactly the bits `i`
for which a `Data(i)` slot was classified hit. -/
theorem c2_read_bits_precedence (qt : QueryTimes) (delays : String → Option ℚ)
    (input : List Xipo) :
    (Xipology.read_bits qt delays input = Except.error ReadError.Free ↔
      XipoBits.Reservation ∉ classifySlots qt delays input)
  ∧ (Xipology.read_bits qt delays input = Except.error ReadError.Consumed ↔
      (XipoBits.Reservation ∈ classifySlots qt delays input ∧
        XipoBits.Guard ∈ classifySlots qt delays input))
  ∧ (Xipology.read_bits qt delays input = Except.error ReadError.Parity ↔
      (XipoBits.Reservation ∈ classifySlots qt delays input ∧
        XipoBits.Guard ∉ classifySlots qt delays input ∧
        ¬(((classifySlots qt delays input).countP isDataB % 2 = 1) ↔
          XipoBits.Parity ∈ classifySlots qt delays input)))
  ∧ (∀ B : Nat, Xipology.read_bits qt delays input = Except.ok B ↔
      (XipoBits.Reservation ∈ classifySlots qt delays input ∧
        XipoBits.Guard ∉ classifySlots qt delays input ∧
        (((classifySlots qt delays input).countP isDataB % 2 = 1) ↔
          XipoBits.Parity ∈ classifySlots qt delays input) ∧
        ∀ j, B.testBit j =
          decide (XipoBits.Data j ∈ classifySlots qt delays input))) :=
  ⟨read_bits_free_iff qt delays input, read_bits_consumed_iff qt delays input,
   read_bits_parity_iff qt delays input,
   fun B => read_bits_ok_iff qt delays input B⟩

/-- C3: the classifier marks a latency as hit iff it is strictly closer to
the hit centroid than to the miss centroid; a probe error (NaN) always
classifies as miss; an exact midpoint is deterministically a miss (the strict
comparison puts the tie on the miss centroid's side). -/
theorem c3_classifier (m h δ : ℚ) :
    (is_hit ⟨some m, some h⟩ (some δ) = true ↔ |δ - h| < |δ - m|)
  ∧ is_hit ⟨some m, some h⟩ none = false
  ∧ (|δ - h| = |δ - m| → is_hit ⟨some m, some h⟩ (some δ) = false) := by
  have habs : |h - δ| = |δ - h| := abs_sub_comm h δ
  have habs2 : |m - δ| = |δ - m| := abs_sub_comm m δ
  refine ⟨?_, is_hit_none _, ?_⟩
  · rw [is_hit_some, habs, habs2]
    exact ⟨of_decide_eq_true, decide_eq_true⟩
  · intro htie
    rw [is_hit_some, habs, habs2, htie]
    simp

/-- Witness for C3 at the exact midpoint 1 between centroids 0 and 2. -/
theorem c3_classifier_witness :
    |(1 : ℚ) - 0| = |(1 : ℚ) - 2| ∧ is_hit ⟨some 2, some 0⟩ (some 1) = false := by
  have htie : |(1 : ℚ) - 0| = |(1 : ℚ) - 2| := by
    rw [show (1 : ℚ) - 0 = 1 by norm_num, show (1 : ℚ) - 2 = -1 by norm_num, abs_neg]
  exact ⟨htie, (c3_classifier 2 0 1).2.2 htie⟩

/-- Data-pair count of the writer's filtered payload list. -/
theorem countP_data_filterMap (b : Nat) (f : Nat → String) (l : List Nat) :
    ((l.filterMap (fun i => if get_bit b i > 0 then
        some ((XipoBits.Data i, f i) : Xipo) else none)).countP
      (fun p => isDataB p.1)) =
      l.countP (fun i => decide (0 < get_bit b i)) := by
  induction l with
  | nil => rfl
  | cons a rest ih =>
      rw [List.filterMap_cons]
      by_cases hc : get_bit b a > 0
      · rw [if_pos hc, List.countP_cons, List.countP_cons, ih]
        have h1 : decide (0 < get_bit b a) = true := decide_eq_true hc
        rw [h1]
        rfl
      · rw [if_neg hc, List.countP_cons, ih]
        have h1 : decide (0 < get_bit b a) = false := by simpa using hc
        rw [h1]
        rfl

/-- The writer emits a parity pair exactly when the data-bit count is odd. -/
theorem parity_mem_output (x : Xipology) (b : Nat) :
    (XipoBits.Parity ∈ ((x.byte_output b).1).map Prod.fst) ↔
      dataCount b % 2 = 1 := by
  rw [byte_output_fst]
  simp only [List.map_cons, List.map_append, List.map_filterMap,
    apply_ite (List.map (Prod.fst : Xipo → XipoBits)), List.map_nil]
  constructor
  · intro hmem
    rcases List.mem_cons.mp hmem with h1 | hmem
    · exact absurd h1 (by simp)
    rcases List.mem_append.mp hmem with h1 | h1
    · rcases List.mem_filterMap.mp h1 with ⟨i, _, hfi⟩
      by_cases hbit : get_bit b i > 0
      · rw [if_pos hbit] at hfi
        exact absurd hfi (by simp)
      · rw [if_neg hbit] at hfi
        exact absurd hfi (by simp)
    · by_cases hpc : dataCount b % 2 = 1
      · exact hpc
      · rw [if_neg hpc] at h1
        exact absurd h1 (List.not_mem_nil _)
  · intro hpc
    refine List.mem_cons_of_mem _ (List.mem_append_right _ ?_)
    rw [if_pos hpc]
    simp

/-- C4: the number of `Data` pairs emitted by `byte_output(b)` plus the
indicator of an emitted `Parity` pair is even; equivalently, the parity pair
is emitted exactly when `b` has an odd number of set bits. -/
theorem c4_parity_invariant (x : Xipology) (b : Nat) :
    ((((x.byte_output b).1).countP (fun p => isDataB p.1)) +
        (if XipoBits.Parity ∈ ((x.byte_output b).1).map Prod.fst then 1 else 0)) % 2
      = 0
  ∧ ((XipoBits.Parity ∈ ((x.byte_output b).1).map Prod.fst) ↔
      Odd ((List.range 8).countP (fun i => decide (0 < get_bit b i)))) := by
  have hcount : (((x.byte_output b).1).countP (fun p => isDataB p.1)) = dataCount b := by
    rw [byte_output_fst]
    rw [List.countP_cons, List.countP_append]
    rw [countP_data_filterMap b (fun i => nameAt x.derivator (2 + i)) (List.range 8)]
    by_cases hpc : dataCount b % 2 = 1
    · rw [if_pos hpc]
      simp [isDataB, dataCount]
    · rw [if_neg hpc]
      simp [isDataB, dataCount]
  have hmem := parity_mem_output x b
  constructor
  · by_cases hpc : dataCount b % 2 = 1
    · rw [if_pos (hmem.mpr hpc), hcount]
      omega
    · rw [if_neg (fun hc => hpc (hmem.mp hc)), hcount]
      omega
  · rw [hmem, Nat.odd_iff]
    exact Iff.rfl

/-- C5: the name stream is a deterministic function of the secret and the
call count: two derivators built from the same secret produce byte-identical
name sequences, and `next_name` depends only on the current (salt, secret)
state. -/
theorem c5_derivator_determinism (s : List Nat) (k : Nat) (d1 d2 : NameDerivator)
    (h1 : d1 = NameDerivator.from_secret s) (h2 : d2 = NameDerivator.from_secret s) :
    namesFrom d1 k = namesFrom d2 k
  ∧ ∀ e1 e2 : NameDerivator, e1.salt = e2.salt → e1.secret = e2.secret →
      e1.next_name = e2.next_name := by
  subst h1
  subst h2
  refine ⟨rfl, ?_⟩
  intro e1 e2 hs hsec
  cases e1
  cases e2
  cases hs
  cases hsec
  rfl

/-- Witness for C5 with the secret `[7]` and three names. -/
theorem c5_derivator_determinism_witness :
    NameDerivator.from_secret [7] = NameDerivator.from_secret [7] ∧
    namesFrom (NameDerivator.from_secret [7]) 3 =
      namesFrom (NameDerivator.from_secret [7]) 3 :=
  ⟨rfl, (c5_derivator_determinism [7] 3 (NameDerivator.from_secret [7])
    (NameDerivator.from_secret [7]) rfl rfl).1⟩

/-- C6: `reset` puts the primary and decoy derivators in the same state as a
channel freshly constructed from the current secret, and discards the
calibration; in particular the next `N` names after `reset` equal the first
`N` names right after construction. -/
theorem c6_reset (x : Xipology) :
    (x.reset).derivator = (Xipology.from_secret x.server x.secret).derivator
  ∧ (x.reset).decoy = (Xipology.from_secret x.server x.secret).decoy
  ∧ (x.reset).query_times = none
  ∧ ∀ N, namesFrom (x.reset).derivator N =
      namesFrom (Xipology.from_secret x.server x.secret).derivator N :=
  ⟨rfl, rfl, rfl, fun _ => rfl⟩

/-- C7: `write_bytes` accepts exactly buffers with 1 to 254 bytes (the
`assert!(len > 0 && len < 255)` of the source), and on an accepted buffer the
emitted slot sequence is the frame of the length byte followed by one frame
per payload byte, in buffer order. -/
theorem c7_write_bytes (x : Xipology) (buf : List Nat) :
    ((x.write_bytes buf).isSome ↔ 1 ≤ buf.length ∧ buf.length ≤ 254)
  ∧ (1 ≤ buf.length → buf.length ≤ 254 →
      x.write_bytes buf =
        some (Xipology.write_bits (frameChain x (buf.length :: buf)).2
            ((frameChain x (buf.length :: buf)).1),
          (frameChain x (buf.length :: buf)).2)) := by
  constructor
  · rw [Xipology.write_bytes]
    by_cases hlen : buf.length > 0 ∧ buf.length < 255
    · rw [if_pos hlen]
      simp
      omega
    · rw [if_neg hlen]
      simp
      omega
  · intro hl hu
    rw [Xipology.write_bytes,
      if_pos (show buf.length > 0 ∧ buf.length < 255 from ⟨by omega, by omega⟩)]
    rfl

/-- Witness for C7 on the two-byte buffer `[3, 250]`. -/
theorem c7_write_bytes_witness :
    1 ≤ ([3, 250] : List Nat).length ∧ ([3, 250] : List Nat).length ≤ 254 ∧
    wChan.write_bytes [3, 250] =
      some (Xipology.write_bits (frameChain wChan (([3, 250] : List Nat).length :: [3, 250])).2
          ((frameChain wChan (([3, 250] : List Nat).length :: [3, 250])).1),
        (frameChain wChan (([3, 250] : List Nat).length :: [3, 250])).2) :=
  ⟨by norm_num, by norm_num,
   (c7_write_bytes wChan [3, 250]).2 (by norm_num) (by norm_num)⟩

/-- C8 counterexample: the source applies no shuffle - the sequence of names
probed by `write_bits` (and by the read path) is exactly the slot-generation
order, here shown at a concrete three-slot list, not a random permutation of
it (there is no randomness in the dispatch at all). -/
theorem c8_shuffle_counterexample :
    (Xipology.write_bits wChan
        [(XipoBits.Reservation, "a"), (XipoBits.Guard, "b"), (XipoBits.Parity, "c")]).1 =
      ["a", "b", "c"]
  ∧ read_probe_order
        [(XipoBits.Reservation, "a"), (XipoBits.Guard, "b"), (XipoBits.Parity, "c")] =
      ["a", "b", "c"] :=
  ⟨rfl, rfl⟩

/-- C8 (amended): neither `write_bits` nor the read path shuffles the slot
list before dispatch: the probes are issued over the list in generation
order, and only the parallel fan-out's completion timing is nondeterministic. -/
theorem c8_no_shuffle_dispatch (x : Xipology) (output input : List Xipo) :
    (Xipology.write_bits x output).1 = output.map (fun p => p.2)
  ∧ read_probe_order input = input.map (fun p => p.2) :=
  ⟨rfl, rfl⟩

/-- Length of the frame-collection loop of `read_bytes`. -/
theorem inputsLoop_length (x : Xipology) (k : Nat) :
    ((inputsLoop x k).1).length = k := by
  induction k generalizing x with
  | zero => rfl
  | succ k ih => simp [inputsLoop, ih]

/-- C9: on a calibrated channel, `read_bytes` first decodes one length byte,
propagating any error of that first frame; on a decoded length `L` it reads
exactly `L` payload frames and returns the vector in which every payload
frame whose decode fails is replaced by the ASCII space byte 0x20, so the
result has length exactly `L`. -/
theorem c9_read_bytes (x : Xipology) (delays : String → Option ℚ)
    (calib : Except Unit QueryTimes) (qt : QueryTimes)
    (hq : x.query_times = some qt) :
    (∀ e, (x.read_byte delays calib).1 = Except.error e →
      (x.read_bytes delays calib).1 = Except.error e)
  ∧ (∀ L, (x.read_byte delays calib).1 = Except.ok L →
      ((x.read_bytes delays calib).1 =
        Except.ok (((inputsLoop (x.read_byte delays calib).2 L).1).map
          (fun input => match Xipology.read_bits qt delays input with
            | Except.ok b => b
            | Except.error _ => 32)))
      ∧ ∀ buf, (x.read_bytes delays calib).1 = Except.ok buf → buf.length = L) := by
  have hbody : x.read_bytes delays calib = readBytesBody x delays qt := by
    simp only [Xipology.read_bytes, hq]
  have hrb2 : x.read_byte delays (Except.ok qt) = x.read_byte delays calib := by
    simp only [Xipology.read_byte, hq]
  constructor
  · intro e he
    have he2 : (x.read_byte delays (Except.ok qt)).1 = Except.error e := by
      rw [hrb2]
      exact he
    rw [hbody]
    simp only [readBytesBody, he2]
  · intro L hL
    have hmain : (x.read_bytes delays calib).1 =
        Except.ok (((inputsLoop (x.read_byte delays calib).2 L).1).map
          (fun input => match Xipology.read_bits qt delays input with
            | Except.ok b => b
            | Except.error _ => 32)) := by
      rw [hbody]
      simp only [readBytesBody, hrb2, hL]
    refine ⟨hmain, fun buf hbuf => ?_⟩
    rw [hmain] at hbuf
    injection hbuf with hb
    rw [← hb, List.length_map, inputsLoop_length]

/-- Witness for C9 on a concrete calibrated channel where every probe times
out (all latencies NaN), so the first frame reads as Free and propagates. -/
theorem c9_read_bytes_witness :
    wChan.query_times = some wQt ∧
    (wChan.read_byte (fun _ => none) (Except.ok wQt)).1 =
      Except.error ReadError.Free ∧
    (wChan.read_bytes (fun _ => none) (Except.ok wQt)).1 =
      Except.error ReadError.Free := by
  have hfree : (wChan.read_byte (fun _ => none) (Except.ok wQt)).1 =
      Except.error ReadError.Free := by
    simp only [Xipology.read_byte, show wChan.query_times = some wQt from rfl]
    rw [read_bits_free_iff]
    intro hmem
    rcases List.mem_map.mp hmem with ⟨p, _, hp⟩
    rw [is_hit_none] at hp
    exact absurd hp (by simp)
  exact ⟨rfl, hfree,
    (c9_read_bytes wChan (fun _ => none) (Except.ok wQt) wQt rfl).1
      ReadError.Free hfree⟩

/-- C10: `byte_output` and `byte_input` always advance the primary derivator
by exactly 11 names; a calibrated `read_byte` advances it by exactly 11 names
whatever its outcome (error outcomes never rewind it), an uncalibrated
`read_byte` with successful calibration does the same, and only a calibration
failure leaves the channel untouched. -/
theorem c10_derivator_advance (x : Xipology) (b : Nat) (delays : String → Option ℚ)
    (calib : Except Unit QueryTimes) :
    ((x.byte_output b).2).derivator = x.derivator.advance 11
  ∧ ((x.byte_input).2).derivator = x.derivator.advance 11
  ∧ (∀ qt, x.query_times = some qt →
      ((x.read_byte delays calib).2).derivator = x.derivator.advance 11)
  ∧ (∀ qt, x.query_times = none → calib = Except.ok qt →
      ((x.read_byte delays calib).2).derivator = x.derivator.advance 11)
  ∧ (x.query_times = none → calib = Except.error () →
      (x.read_byte delays calib).2 = x) := by
  refine ⟨?_, ?_, ?_, ?_, ?_⟩
  · rw [byte_output_snd]
  · rw [byte_input_snd]
  · intro qt hq
    simp only [Xipology.read_byte, hq]
    rw [byte_input_snd]
  · intro qt hq hc
    simp only [Xipology.read_byte, hq, hc]
    rw [byte_input_snd]
  · intro hq hc
    simp only [Xipology.read_byte, hq, hc]

/-- Witness for C10 on a calibrated channel with all-NaN latencies. -/
theorem c10_derivator_advance_witness :
    wChan.query_times = some wQt ∧
    ((wChan.read_byte (fun _ => none) (Except.ok wQt)).2).derivator =
      wChan.derivator.advance 11 :=
  ⟨rfl, (c10_derivator_advance wChan 0 (fun _ => none) (Except.ok wQt)).2.2.1 wQt rfl⟩
